import Mathlib

/-!
Shallow embedding of the entity-filtering pipeline of `src/routes/anonymize.js`,
of the markup annotator (`src/utils/anonymizerUtils.js` and `src/unnamed/part_000`)
and of the result-signature helpers (`src/components/Anonymizer/index.js`),
together with proofs of the specification claims about them.

Modelling conventions:
* JavaScript strings are modelled as `List Char` ( one element per code unit on
  the BMP texts the claims quantify over ); on the JSON side, Lean `String` is
  used for object keys and serialized output.
* JavaScript numbers are modelled as `JSNum`: NaN, the two infinities, or a
  finite value ( every finite double is rational, so the finite case carries ℚ ).
* `String.prototype.normalize("NFC")` is an external Unicode service; it is kept
  as an explicit function parameter `nfc` wherever the source calls it.
* `toLowerCase` / `toUpperCase` / `trim` are modelled per code unit with the
  ASCII case and whitespace tables, which agree with JavaScript on the data the
  claims are about.
-/

namespace Polly

/-- A JavaScript number: NaN, ±Infinity, or a finite value. -/
inductive JSNum where
  | nan
  | inf
  | negInf
  | fin (q : ℚ)
deriving DecidableEq, Repr

/-- `Number.isFinite`. -/
def JSNum.isFinite : JSNum → Bool
  | .fin _ => true
  | _ => false

/-- A loosely typed JavaScript value as held by an entity or request field: a
number, a string, `undefined` ( also modelling an absent property ), or any
other value ( object, boolean, null, ... ). -/
inductive JSVal where
  | num (x : JSNum)
  | str (s : List Char)
  | undefined
  | other
deriving DecidableEq, Repr

/-- Whitespace recognized by JavaScript's `trim` and `parseFloat` ( ASCII part ). -/
def jsWhite (c : Char) : Bool :=
  c = ' ' || c = '\t' || c = '\n' || c = '\r' || c = '\x0b' || c = '\x0c'

/-- Value of a digit string. -/
def digitsVal (ds : List Char) : Nat :=
  ds.foldl (fun a c => a * 10 + (c.toNat - 48)) 0

/-- Truncation toward zero ( ECMAScript `ToIntegerOrInfinity` on a finite value ). -/
def ratTrunc (q : ℚ) : Int := q.num.tdiv (q.den : Int)

/-- `Number.parseFloat`: skip whitespace, take the longest valid decimal-literal
prefix ( optional sign, digits, optional fraction, optional well-formed exponent,
or `Infinity` ); `NaN` when no digits were consumed. -/
def jsParseFloat (cs0 : List Char) : JSNum :=
  let cs1 := cs0.dropWhile jsWhite
  let sgnRest : ℚ × List Char :=
    match cs1 with
    | '-' :: rest => (-1, rest)
    | '+' :: rest => (1, rest)
    | _ => (1, cs1)
  let sgn := sgnRest.1
  let cs2 := sgnRest.2
  if "Infinity".data.isPrefixOf cs2 then
    if sgn < 0 then .negInf else .inf
  else
    let intPart := cs2.takeWhile Char.isDigit
    let cs3 := cs2.dropWhile Char.isDigit
    let fracRest : List Char × List Char :=
      match cs3 with
      | '.' :: rest => (rest.takeWhile Char.isDigit, rest.dropWhile Char.isDigit)
      | _ => ([], cs3)
    let fracPart := fracRest.1
    let cs4 := fracRest.2
    if intPart.isEmpty && fracPart.isEmpty then .nan
    else
      let mant : ℚ := (digitsVal intPart : ℚ) + (digitsVal fracPart : ℚ) / (10 : ℚ) ^ fracPart.length
      let expo : Int :=
        match cs4 with
        | e :: rest =>
          if e = 'e' || e = 'E' then
            let esgnRest : Int × List Char :=
              match rest with
              | '-' :: r => (-1, r)
              | '+' :: r => (1, r)
              | _ => (1, rest)
            let eds := esgnRest.2.takeWhile Char.isDigit
            if eds.isEmpty then 0 else esgnRest.1 * (digitsVal eds : Int)
          else 0
        | [] => 0
      .fin (sgn * mant * (10 : ℚ) ^ expo)

/-- `toLowerCase`, per code unit. -/
def jsToLower (cs : List Char) : List Char := cs.map Char.toLower

/-- `toUpperCase`, per code unit. -/
def jsToUpper (cs : List Char) : List Char := cs.map Char.toUpper

/-- `String.prototype.trim`. -/
def jsTrim (cs : List Char) : List Char :=
  ((cs.dropWhile jsWhite).reverse.dropWhile jsWhite).reverse

/-- `normalizeListTerm` ( `src/routes/anonymize.js:14` ): NFC-normalize, trim and
lowercase a string; any non-string value maps to `""`. The NFC normalization is
the external parameter `nfc`. -/
def normalizeListTerm (nfc : List Char → List Char) : Option (List Char) → List Char
  | some s => jsToLower (jsTrim (nfc s))
  | none => []

/-- Delimiter class of `TERM_SPLIT_REGEX = /[\n,]+/`. -/
def termSplitChar (c : Char) : Bool := c = '\n' || c = ','

/-- Split at every single delimiter character ( helper for run splitting ). -/
def splitEvery (p : Char → Bool) : List Char → List (List Char)
  | [] => [[]]
  | c :: rest =>
    if p c then [] :: splitEvery p rest
    else
      match splitEvery p rest with
      | t :: ts => (c :: t) :: ts
      | [] => [[c]]

/-- Drop empty segments except a final one, so that splitting on single
delimiters collapses to splitting on delimiter runs:
`"a,,b" ↦ ["a","b"]`, `",a" ↦ ["","a"]`, `"a," ↦ ["a",""]`. -/
def keepLastOrNonEmpty : List (List Char) → List (List Char)
  | [] => []
  | [t] => [t]
  | t :: rest => if t.isEmpty then keepLastOrNonEmpty rest else t :: keepLastOrNonEmpty rest

/-- `String.prototype.split` against a regex matching runs of delimiter
characters. -/
def splitRuns (p : Char → Bool) (cs : List Char) : List (List Char) :=
  match splitEvery p cs with
  | [] => []
  | t :: rest => t :: keepLastOrNonEmpty rest

/-- The input shapes `parseListInput` distinguishes: a ( non-empty, hence
truthy ) string, an array whose entries may or may not be strings, any other
truthy value, or a falsy value ( `undefined`, `null`, `""`, `0`, `false`, `NaN` ). -/
inductive TermsInput where
  | str (cs : List Char)
  | arr (entries : List (Option (List Char)))
  | otherTruthy
  | falsy

/-- `parseListInput` ( `src/routes/anonymize.js:22` ). -/
def parseListInput (nfc : List Char → List Char) : TermsInput → List (List Char)
  | .falsy => []
  | .arr entries =>
    ((entries.flatMap fun entry =>
        match entry with
        | some s => splitRuns termSplitChar s
        | none => []).map
      (fun t => normalizeListTerm nfc (some t))).filter (fun t => !t.isEmpty)
  | .str cs =>
    if cs.isEmpty then []
    else
      ((splitRuns termSplitChar cs).map (fun t => normalizeListTerm nfc (some t))).filter
        (fun t => !t.isEmpty)
  | .otherTruthy => []

/-- First-occurrence deduplication: the membership and iteration order of a JS
`Set` built from a list. -/
def dedupFirstSeen (seen : List (List Char)) : List (List Char) → List (List Char)
  | [] => []
  | x :: xs => if seen.contains x then dedupFirstSeen seen xs else x :: dedupFirstSeen (x :: seen) xs

/-- `buildTermSet = new Set(parseListInput(input))`, as the list of set members
in insertion order. -/
def buildTermSet (nfc : List Char → List Char) (input : TermsInput) : List (List Char) :=
  dedupFirstSeen [] (parseListInput nfc input)

/-- An analyzer entity record; fields are loosely typed JS values and `none`
models an absent property. -/
structure Entity where
  entity_type : Option (List Char)
  start : JSVal
  end_ : JSVal
  score : JSVal
  recognizer_result : Option (List Char)
  text : Option (List Char)
deriving DecidableEq, Repr

/-- The finite numeric value of a field, when it holds one
( `Number.isFinite(v)` and extraction in one step ). -/
def finOf : JSVal → Option ℚ
  | .num (.fin q) => some q
  | _ => none

/-- Clamp a relative index the way `slice` does. -/
def sliceIndex (i : Int) (len : Nat) : Nat :=
  if i < 0 then ((len : Int) + i).toNat else min i.toNat len

def numToSliceIndex (x : JSNum) (len : Nat) : Nat :=
  match x with
  | .nan => 0
  | .inf => len
  | .negInf => 0
  | .fin q => sliceIndex (ratTrunc q) len

/-- `String.prototype.slice(start, end)` for numeric arguments. -/
def jsSlice (cs : List Char) (a b : JSNum) : List Char :=
  (cs.take (numToSliceIndex b cs.length)).drop (numToSliceIndex a cs.length)

/-- `shouldIncludeEntity` ( `src/routes/anonymize.js:64` ). -/
def shouldIncludeEntity (nfc : List Char → List Char) (entity : Option Entity)
    (sourceText : List Char) (allowlistSet denylistSet : List (List Char)) : Bool :=
  match entity with
  | none => false
  | some e =>
    match finOf e.start, finOf e.end_ with
    | some s, some en =>
      if en ≤ s then false
      else
        let candidate := jsSlice sourceText (.fin s) (.fin en)
        let normalizedCandidate := normalizeListTerm nfc (some candidate)
        if normalizedCandidate.length = 0 then false
        else if denylistSet.contains normalizedCandidate then true
        else if allowlistSet.contains normalizedCandidate then false
        else true
    | _, _ => false

/-- First index at which `needle` occurs as a prefix of the remaining suffix of
the second argument. -/
def findPrefixIndex (needle : List Char) : List Char → Option Nat
  | [] => if needle.isEmpty then some 0 else none
  | c :: rest =>
    if needle.isPrefixOf (c :: rest) then some 0
    else (findPrefixIndex needle rest).map (· + 1)

/-- `String.prototype.indexOf(needle, start)` for the scanner's arguments. -/
def jsIndexOfFrom (hay needle : List Char) (start : Nat) : Option Nat :=
  (findPrefixIndex needle (hay.drop start)).map (· + start)

/-- The scanner's inner `while (searchIndex <= lowerSource.length)` loop, with
explicit fuel: a non-empty term advances the cursor past each match, so
`lowerSource.length + 1` iterations always suffice. -/
def scanTermFuel (lowerSource term : List Char) : Nat → Nat → List (Nat × Nat)
  | _, 0 => []
  | searchIndex, fuel + 1 =>
    if searchIndex ≤ lowerSource.length then
      match jsIndexOfFrom lowerSource term searchIndex with
      | none => []
      | some m => (m, m + term.length) :: scanTermFuel lowerSource term (m + term.length) fuel
    else []

def scanTerm (lowerSource term : List Char) (searchIndex : Nat) : List (Nat × Nat) :=
  scanTermFuel lowerSource term searchIndex (lowerSource.length + 1 - searchIndex)

/-- The synthetic entity pushed for one match `(start, end)` of a deny term. -/
def denylistEntityFor (sourceText : List Char) (se : Nat × Nat) : Entity :=
  { entity_type := some "DENYLIST_TERM".data
    start := .num (.fin (se.1 : ℚ))
    end_ := .num (.fin (se.2 : ℚ))
    score := .num (.fin 1)
    recognizer_result := some "denylist".data
    text := some (jsSlice sourceText (.fin (se.1 : ℚ)) (.fin (se.2 : ℚ))) }

/-- `findDenylistEntities` ( `src/routes/anonymize.js:92` ). -/
def findDenylistEntities (sourceText : List Char) (denylistSet : List (List Char)) : List Entity :=
  if denylistSet.isEmpty then []
  else
    let lowerSource := jsToLower sourceText
    denylistSet.flatMap fun term =>
      if term.isEmpty then []
      else (scanTerm lowerSource term 0).map (denylistEntityFor sourceText)

/-- JS number printing, for the values the dedup key can contain: integers
print exactly as JS prints them; an injective encoding stands in for the
non-integer case ( JS prints its shortest round-trip decimal there ). -/
def ratKeyChars (q : ℚ) : List Char :=
  if q.den = 1 then (toString q.num).data
  else (toString q.num).data ++ '/' :: (toString (q.den : Int)).data

/-- The dedup key `` `${start}-${end}-${type}` ``. -/
def entityKey (s en : ℚ) (ty : List Char) : List Char :=
  ratKeyChars s ++ '-' :: ratKeyChars en ++ '-' :: ty

/-- The validation and key building done by `pushIfUnique`
( `src/routes/anonymize.js:133` ): `none` when the candidate is dropped
( non-object, non-finite offsets, or `start >= end` ). -/
def validatedKey : Option Entity → Option (Entity × List Char)
  | none => none
  | some e =>
    match finOf e.start, finOf e.end_ with
    | some s, some en =>
      if en ≤ s then none
      else some (e, entityKey s en (e.entity_type.getD []))
    | _, _ => none

def mergeAux (seen : List (List Char)) : List (Option Entity) → List Entity
  | [] => []
  | entity :: rest =>
    match validatedKey entity with
    | none => mergeAux seen rest
    | some ek =>
      if seen.contains ek.2 then mergeAux seen rest
      else ek.1 :: mergeAux (ek.2 :: seen) rest

/-- `mergeEntities` ( `src/routes/anonymize.js:129` ): one `seen` set shared by
the pass over `baseEntities` and then the pass over `supplementalEntities`. -/
def mergeEntities (baseEntities supplementalEntities : List (Option Entity)) : List Entity :=
  mergeAux [] (baseEntities ++ supplementalEntities)

/-- The `typeof v === "number" ? v : typeof v === "string" ? parseFloat(v) : NaN`
coercion used for both `score` and `threshold`. -/
def jsNumericValue : JSVal → JSNum
  | .num x => x
  | .str s => jsParseFloat s
  | _ => .nan

/-- The per-entity predicate of `thresholdFiltered`
( `src/routes/anonymize.js:461`: `Number.isFinite(score) ? score >= t : true` ). -/
def thresholdKeep (e : Entity) (acceptanceThreshold : ℚ) : Bool :=
  match jsNumericValue e.score with
  | .fin score => decide (acceptanceThreshold ≤ score)
  | _ => true

/-- `entityTypeFiltered` ( `src/routes/anonymize.js:446` ); `none` in the first
argument models a non-array analyzer response, `none` in the second the absent
type filter. -/
def entityTypeFiltered (analyzerResults : Option (List (Option Entity)))
    (entityTypeFilterSet : Option (List (List Char))) : List (Option Entity) :=
  match analyzerResults with
  | none => []
  | some l =>
    l.filter fun entity =>
      match entity with
      | none => false
      | some e =>
        match entityTypeFilterSet with
        | none => true
        | some ts =>
          ts.contains
            (match e.entity_type with
              | some t => jsToUpper (jsTrim t)
              | none => [])

def thresholdFiltered (l : List (Option Entity)) (acceptanceThreshold : ℚ) :
    List (Option Entity) :=
  l.filter fun entity =>
    match entity with
    | none => false
    | some e => thresholdKeep e acceptanceThreshold

def allowDenyFiltered (nfc : List Char → List Char) (l : List (Option Entity))
    (text : List Char) (allowlistSet denylistSet : List (List Char)) : List (Option Entity) :=
  l.filter fun entity => shouldIncludeEntity nfc entity text allowlistSet denylistSet

/-- The filter and merge stages of the anonymize route
( `src/routes/anonymize.js:446-481` ). -/
def filterPipeline (nfc : List Char → List Char) (analyzerResults : Option (List (Option Entity)))
    (text : List Char) (entityTypeFilterSet : Option (List (List Char)))
    (acceptanceThreshold : ℚ) (allowlistSet denylistSet : List (List Char)) : List Entity :=
  mergeEntities
    (allowDenyFiltered nfc
      (thresholdFiltered (entityTypeFiltered analyzerResults entityTypeFilterSet)
        acceptanceThreshold)
      text allowlistSet denylistSet)
    ((findDenylistEntities text denylistSet).map some)

def DEFAULT_ACCEPTANCE_THRESHOLD : ℚ := 1 / 2

/-- `acceptanceThreshold` ( `src/routes/anonymize.js:387-397` ):
`Number.isFinite(p) && p >= 0 && p <= 1 ? p : DEFAULT_ACCEPTANCE_THRESHOLD`. -/
def acceptanceThreshold (rawThreshold : JSVal) : ℚ :=
  match jsNumericValue rawThreshold with
  | .fin p => if 0 ≤ p ∧ p ≤ 1 then p else DEFAULT_ACCEPTANCE_THRESHOLD
  | _ => DEFAULT_ACCEPTANCE_THRESHOLD

/-- The route's `text` argument: a string or anything else. -/
inductive TextInput where
  | str (cs : List Char)
  | nonString

/-- The route's input validation ( `src/routes/anonymize.js:402-407` ):
`typeof text !== "string" || text.trim().length === 0` is answered with an
HTTP 400 invalid-input error before any pipeline stage runs. -/
def textRejected : TextInput → Bool
  | .str cs => (jsTrim cs).isEmpty
  | .nonString => true

/-- A record that passed offset validation. -/
def validEntity (e : Entity) : Bool :=
  match finOf e.start, finOf e.end_ with
  | some s, some en => decide (s < en)
  | _, _ => false

/-! ## The markup annotator ( `applyAnonymizationToHtml` ) -/

/-- A client-side entity record as the annotator reads it. `start`/`end_` are
`some x` exactly when the field holds a number ( possibly NaN or ±∞, which
`typeof ... === "number"` accepts ). -/
structure AnnEntity where
  entity_type : Option String
  start : Option JSNum
  end_ : Option JSNum
  foundText : Option (List Char)
deriving DecidableEq, Repr

/-- JS `>` on two numbers ( `entity.end > entity.start` ). -/
def jsNumGt : JSNum → JSNum → Bool
  | .nan, _ => false
  | _, .nan => false
  | .inf, .inf => false
  | .inf, _ => true
  | _, .inf => false
  | .negInf, _ => false
  | .fin _, .negInf => true
  | .fin a, .fin b => decide (b < a)

/-- The `entities.forEach` pass that overwrites `foundText` with
`plainText.slice(start, end)` when `plainText` is a string and both offsets are
numbers with `end > start`. -/
def computeFoundTexts (plainText : Option (List Char)) (entities : List (Option AnnEntity)) :
    List (Option AnnEntity) :=
  match plainText with
  | none => entities
  | some pt =>
    entities.map fun entity =>
      match entity with
      | none => none
      | some e =>
        match e.start, e.end_ with
        | some s, some en =>
          if jsNumGt en s then some { e with foundText := some (jsSlice pt s en) } else some e
        | _, _ => some e

/-- `resolveDisplayEntityType` ( `src/utils/anonymizerUtils.js:6` ); the `Map`
and plain-object variants of `displayMap` collapse to one association list. -/
def resolveDisplayEntityType (entityType : Option String)
    (displayMap : Option (List (String × String))) : Option String :=
  match entityType with
  | none => none
  | some t =>
    if t.isEmpty then some t
    else
      match displayMap with
      | none => some t
      | some m => some ((m.lookup t).getD t)

/-- The replacement text for one entity: `&lt;LABEL&gt;`, or `&lt;REDACTED&gt;`
when the resolved label is falsy. -/
def replacementFor (e : AnnEntity) (displayMap : Option (List (String × String))) : List Char :=
  match resolveDisplayEntityType e.entity_type displayMap with
  | some t => if t.isEmpty then "&lt;REDACTED&gt;".data else ("&lt;" ++ t ++ "&gt;").data
  | none => "&lt;REDACTED&gt;".data

/-- Global literal replacement: the effect of
`html.replace(new RegExp(escapedFoundText, "g"), replacement)` for a
regex-escaped literal — every non-overlapping left-to-right occurrence in the
original string is replaced and replacement text is not re-scanned. Fuel-driven
so that it computes by kernel reduction; one character of the haystack is
consumed per step, so `cs.length` fuel always suffices. -/
def replaceAllFuel (needle repl : List Char) : Nat → List Char → List Char
  | 0, cs => cs
  | _, [] => []
  | fuel + 1, c :: rest =>
    if needle.isPrefixOf (c :: rest) then
      repl ++ replaceAllFuel needle repl fuel (rest.drop (needle.length - 1))
    else c :: replaceAllFuel needle repl fuel rest

def replaceAll (needle repl cs : List Char) : List Char :=
  if needle.isEmpty then cs else replaceAllFuel needle repl cs.length cs

/-- One iteration of the substitution loop shared by both implementations:
skip null entities and entities without a non-empty string `foundText`. -/
def applyEntityReplacement (displayMap : Option (List (String × String)))
    (acc : List Char) (entity : Option AnnEntity) : List Char :=
  match entity with
  | none => acc
  | some e =>
    match e.foundText with
    | none => acc
    | some ft => if ft.isEmpty then acc else replaceAll ft (replacementFor e displayMap) acc

def foundLen : Option AnnEntity → Nat
  | some e =>
    match e.foundText with
    | some s => s.length
    | none => 0
  | none => 0

/-- The comparator `(a, b) => bLength - aLength` read as the relation
"`a` may come no later than `b`". -/
def annLenLe (a b : Option AnnEntity) : Bool := decide (foundLen b ≤ foundLen a)

/-- Stable insertion sort: the model of `Array.prototype.sort` with a
consistent comparator ( JS sort is stable, and every stable sort computes the
same list ). -/
def insertLe {α : Type} (le : α → α → Bool) (x : α) : List α → List α
  | [] => [x]
  | y :: ys => if le x y then x :: y :: ys else y :: insertLe le x ys

def sortLe {α : Type} (le : α → α → Bool) : List α → List α
  | [] => []
  | x :: xs => insertLe le x (sortLe le xs)

/-- The substitution order of the utils annotator:
`[...entities].sort((a, b) => bLength - aLength)` after the `foundText` pass. -/
def annotationOrder (plainText : Option (List Char)) (entities : List (Option AnnEntity)) :
    List (Option AnnEntity) :=
  sortLe annLenLe (computeFoundTexts plainText entities)

/-- `applyAnonymizationToHtml` of `src/utils/anonymizerUtils.js:26` ( the
`_items` argument is unused by the source and omitted ). -/
def applyAnonymizationToHtml (html : List Char) (plainText : Option (List Char))
    (entities : List (Option AnnEntity)) (displayMap : Option (List (String × String))) :
    List Char :=
  if entities.isEmpty then html
  else (annotationOrder plainText entities).foldl (applyEntityReplacement displayMap) html

/-- `applyAnonymizationToHtml` of `src/unnamed/part_000:26`: the same per-entity
substitution, but iterating the entity array from the last index down to the
first, without sorting. -/
def applyAnonymizationToHtmlAlt (html : List Char) (plainText : Option (List Char))
    (entities : List (Option AnnEntity)) (displayMap : Option (List (String × String))) :
    List Char :=
  ((computeFoundTexts plainText entities).reverse).foldl (applyEntityReplacement displayMap) html

/-! ## The result signature ( `src/components/Anonymizer/index.js` ) -/

/-- A JSON-ish JavaScript value, for the result-signature payload. -/
inductive JVal where
  | jnull
  | jundefined
  | jbool (b : Bool)
  | jnum (x : JSNum)
  | jstr (s : String)
  | jarr (elems : List JVal)
  | jobj (fields : List (String × JVal))

/-- `Number(value.toFixed(6))`: round to 6 decimal places, ties away from zero
( `toFixed` extracts the sign and rounds the magnitude, picking the larger
integer on a tie ). -/
def round6 (q : ℚ) : ℚ :=
  ((if 0 ≤ q then ⌊q * 1000000 + 1 / 2⌋ else -⌊-(q * 1000000) + 1 / 2⌋ : ℤ) : ℚ) / 1000000

def stripTrailingZeros (cs : List Char) : List Char :=
  (cs.reverse.dropWhile (· = '0')).reverse

def padLeftZeros (cs : List Char) (n : Nat) : List Char :=
  List.replicate (n - cs.length) '0' ++ cs

/-- `JSON.stringify` of the finite number `round6 q`: its denominator divides
10^6, and JS prints the exact decimal ( the shortest round-trip form for these
values in the non-astronomical range ). -/
def jsonNumString (r : ℚ) : String :=
  let sgnStr : List Char := if r < 0 then ['-'] else []
  let m : Nat := (|r| * 1000000).num.toNat
  let ip : List Char := (toString (m / 1000000)).data
  let fp : List Char := stripTrailingZeros (padLeftZeros (toString (m % 1000000)).data 6)
  ⟨sgnStr ++ ip ++ (if fp.isEmpty then [] else '.' :: fp)⟩

def hexDigit (n : Nat) : Char := if n < 10 then Char.ofNat (48 + n) else Char.ofNat (87 + n)

def escChar (c : Char) : List Char :=
  if c = '"' then ['\\', '"']
  else if c = '\\' then ['\\', '\\']
  else if c = '\n' then ['\\', 'n']
  else if c = '\r' then ['\\', 'r']
  else if c = '\t' then ['\\', 't']
  else if c = '\x08' then ['\\', 'b']
  else if c = '\x0c' then ['\\', 'f']
  else if c.toNat < 32 then
    '\\' :: 'u' :: '0' :: '0' :: [hexDigit (c.toNat / 16), hexDigit (c.toNat % 16)]
  else [c]

/-- `JSON.stringify` of a string. -/
def jsonQuote (s : String) : String := ⟨'"' :: s.data.flatMap escChar ++ ['"']⟩

/-- Lexicographic order on code units: how JS's default `Array.sort` compares
strings. -/
def charListLe : List Char → List Char → Bool
  | [], _ => true
  | _ :: _, [] => false
  | a :: as, b :: bs =>
    if a.toNat < b.toNat then true
    else if b.toNat < a.toNat then false
    else charListLe as bs

/-- Key order used by `Object.keys(value).sort()`. -/
def keyLe (a b : String × String) : Bool := charListLe a.1.data b.1.data

mutual

/-- `stableStringify` ( `src/components/Anonymizer/index.js:42` ): canonical
JSON with object keys sorted lexicographically at every level. The source
sorts `Object.keys(value)` and looks each key up; this is realized by sorting
the serialized `(key, value)` pairs by key, which is the same function on the
unique-key objects JS produces. -/
def stableStringify : JVal → String
  | .jnull => "null"
  | .jundefined => "null"
  | .jbool b => if b then "true" else "false"
  | .jnum x =>
    match x with
    | .fin q => jsonNumString (round6 q)
    | _ => "null"
  | .jstr s => jsonQuote s
  | .jarr elems => "[" ++ String.intercalate "," (stringifyElems elems) ++ "]"
  | .jobj fields =>
    "\x7b" ++
        String.intercalate ","
          ((sortLe keyLe (stringifyFields fields)).map fun p => jsonQuote p.1 ++ ":" ++ p.2) ++
      "\x7d"

def stringifyElems : List JVal → List String
  | [] => []
  | v :: rest => stableStringify v :: stringifyElems rest

def stringifyFields : List (String × JVal) → List (String × String)
  | [] => []
  | kv :: rest => (kv.1, stableStringify kv.2) :: stringifyFields rest

end

/-- The fields `buildResultSignature` destructures from its payload;
`.jundefined` models an absent property, so the destructuring defaults apply. -/
structure PayloadFields where
  sourceText : JVal := .jundefined
  sourceHtml : JVal := .jundefined
  resultText : JVal := .jundefined
  resultHtml : JVal := .jundefined
  nerModel : JVal := .jundefined
  language : JVal := .jundefined
  threshold : JVal := .jundefined
  allowlist : JVal := .jundefined
  denylist : JVal := .jundefined
  entityTypes : JVal := .jundefined
  entities : JVal := .jundefined
  items : JVal := .jundefined

/-- The payload argument: a truthy object, or anything else
( `!payload || typeof payload !== "object"` ). -/
inductive SigPayload where
  | nonObject
  | obj (p : PayloadFields)

/-- Destructuring default: used exactly when the property is `undefined`. -/
def orDefault (v dflt : JVal) : JVal :=
  match v with
  | .jundefined => dflt
  | w => w

def jsTrimStr (s : String) : String := ⟨jsTrim s.data⟩

def jsUpperStr (s : String) : String := ⟨jsToUpper s.data⟩

def strLe (a b : String) : Bool := charListLe a.data b.data

def dedupStrFirstSeen (seen : List String) : List String → List String
  | [] => []
  | x :: xs =>
    if seen.contains x then dedupStrFirstSeen seen xs
    else x :: dedupStrFirstSeen (x :: seen) xs

/-- The `typeof threshold` dispatch inside `buildResultSignature`; any other
type falls back to the default threshold ( not to NaN ). -/
def normalizedThreshold (thr : JVal) : JSNum :=
  match thr with
  | .jnum x => x
  | .jstr s => jsParseFloat s.data
  | _ => .fin DEFAULT_ACCEPTANCE_THRESHOLD

/-- The entity-type list normalization:
`Array.from(new Set(entityTypes.map(trim → upper).filter(Boolean))).sort()`;
a non-array yields `[]`. -/
def normalizeEntityTypes (v : JVal) : List String :=
  match v with
  | .jarr xs =>
    sortLe strLe
      (dedupStrFirstSeen []
        ((xs.map fun x =>
            match x with
            | .jstr s => jsUpperStr (jsTrimStr s)
            | _ => "").filter
          (fun s => !s.isEmpty)))
  | _ => []

/-- `buildResultSignature` ( `src/components/Anonymizer/index.js:79` ). -/
def buildResultSignature : SigPayload → String
  | .nonObject => ""
  | .obj p =>
    let thresholdOut : JVal :=
      match normalizedThreshold (orDefault p.threshold (.jnum (.fin DEFAULT_ACCEPTANCE_THRESHOLD))) with
      | .fin q => .jnum (.fin (round6 q))
      | _ => .jnum (.fin DEFAULT_ACCEPTANCE_THRESHOLD)
    let entityTypesOut : JVal :=
      .jarr ((normalizeEntityTypes (orDefault p.entityTypes (.jarr []))).map .jstr)
    let keepArr : JVal → JVal := fun v =>
      match v with
      | .jarr xs => .jarr xs
      | _ => .jarr []
    stableStringify (.jobj
      [("sourceText", orDefault p.sourceText (.jstr "")),
       ("sourceHtml", orDefault p.sourceHtml (.jstr "")),
       ("resultText", orDefault p.resultText (.jstr "")),
       ("resultHtml", orDefault p.resultHtml (.jstr "")),
       ("nerModel", orDefault p.nerModel (.jstr "")),
       ("language", orDefault p.language (.jstr "")),
       ("threshold", thresholdOut),
       ("allowlist", orDefault p.allowlist (.jstr "")),
       ("denylist", orDefault p.denylist (.jstr "")),
       ("entityTypes", entityTypesOut),
       ("entities", keepArr (orDefault p.entities (.jarr []))),
       ("items", keepArr (orDefault p.items (.jarr [])))])

/-! ## Specification-side definitions used by the claims -/

/-- Specification-side first-seen-wins dedup over validated, keyed candidates:
keep the first record of each key, in order. -/
def dedupByKey : List (Entity × List Char) → List (Entity × List Char)
  | [] => []
  | p :: rest => p :: dedupByKey (rest.filter fun q => q.2 ≠ p.2)
termination_by l => l.length
decreasing_by
  exact Nat.lt_succ_of_le (List.length_filter_le _ _)

/-- The `seen` set after one pass of `pushIfUnique` over a list. -/
def seenAfter (seen : List (List Char)) : List (Option Entity) → List (List Char)
  | [] => seen
  | entity :: rest =>
    match validatedKey entity with
    | none => seenAfter seen rest
    | some ek =>
      if seen.contains ek.2 then seenAfter seen rest
      else seenAfter (ek.2 :: seen) rest

/-- The normalized found-text of a span, as the term-policy filter computes it. -/
def termPolicyNorm (nfc : List Char → List Char) (sourceText : List Char) (s en : ℚ) :
    List Char :=
  normalizeListTerm nfc (some (jsSlice sourceText (.fin s) (.fin en)))

/-- The dedup key of a validated output record. -/
def entityKeyOf (e : Entity) : List Char :=
  match finOf e.start, finOf e.end_ with
  | some s, some en => entityKey s en (e.entity_type.getD [])
  | _, _ => []

/-- What `stableStringify` prints a number from: the rounded value of a finite
number, or nothing ( the canonical `null` ) for NaN and the infinities. -/
def numRep : JSNum → Option ℚ
  | .fin q => some (round6 q)
  | _ => none

/-- Two payload values that differ only in object key insertion order ( at any
nesting level, with the well-formedness condition that keys are unique, as in
every JS object ) or in finite numeric values that agree after rounding to six
decimal places ( with NaN and the infinities identified, as they all print as
`null` ). -/
inductive JEquiv : JVal → JVal → Prop
  | jnull : JEquiv .jnull .jnull
  | jundefined : JEquiv .jundefined .jundefined
  | jbool (b : Bool) : JEquiv (.jbool b) (.jbool b)
  | jstr (s : String) : JEquiv (.jstr s) (.jstr s)
  | jnum (x y : JSNum) : numRep x = numRep y → JEquiv (.jnum x) (.jnum y)
  | jarr (xs ys : List JVal) : List.Forall₂ JEquiv xs ys → JEquiv (.jarr xs) (.jarr ys)
  | jobj (fs hs gs : List (String × JVal)) :
      (fs.map Prod.fst).Nodup → fs.Perm hs →
      hs.map Prod.fst = gs.map Prod.fst →
      List.Forall₂ JEquiv (hs.map Prod.snd) (gs.map Prod.snd) →
      JEquiv (.jobj fs) (.jobj gs)

/-- A `PERSON` entity carrying only a found-text, for the annotator scenarios. -/
def annPerson (ft : String) : Option AnnEntity :=
  some { entity_type := some "PERSON", start := none, end_ := none, foundText := some ft.data }

/-! ## Claims -/

theorem list_contains_iff {α : Type} [BEq α] [LawfulBEq α] (l : List α) (a : α) :
    l.contains a = true ↔ a ∈ l := by
  simp [List.contains, List.elem_iff]

/-- C1: Deny precedence in TermPolicyFilter. For every entity with finite
offsets `start < end`, writing `n` for the NFC-normalized, trimmed, lowercased
`sourceText.slice(start, end)`: if `n` is non-empty and in the deny set the
entity is included, even when `n` is also in the allow set; if `n` is not in
the deny set but is in the allow set the entity is excluded; if `n` is in
neither and non-empty the entity is included; and if `n` is empty the entity
is dropped. -/
theorem C1_term_policy_deny_precedence (nfc : List Char → List Char) (e : Entity)
    (sourceText : List Char) (allowlistSet denylistSet : List (List Char)) (s en : ℚ)
    (hs : finOf e.start = some s) (he : finOf e.end_ = some en) (hlt : s < en) :
    (termPolicyNorm nfc sourceText s en ≠ [] →
        termPolicyNorm nfc sourceText s en ∈ denylistSet →
        shouldIncludeEntity nfc (some e) sourceText allowlistSet denylistSet = true) ∧
    (termPolicyNorm nfc sourceText s en ∉ denylistSet →
        termPolicyNorm nfc sourceText s en ∈ allowlistSet →
        shouldIncludeEntity nfc (some e) sourceText allowlistSet denylistSet = false) ∧
    (termPolicyNorm nfc sourceText s en ≠ [] →
        termPolicyNorm nfc sourceText s en ∉ denylistSet →
        termPolicyNorm nfc sourceText s en ∉ allowlistSet →
        shouldIncludeEntity nfc (some e) sourceText allowlistSet denylistSet = true) ∧
    (termPolicyNorm nfc sourceText s en = [] →
        shouldIncludeEntity nfc (some e) sourceText allowlistSet denylistSet = false) := by
  have hmain : shouldIncludeEntity nfc (some e) sourceText allowlistSet denylistSet =
      (if (termPolicyNorm nfc sourceText s en).length = 0 then false
        else if denylistSet.contains (termPolicyNorm nfc sourceText s en) then true
        else if allowlistSet.contains (termPolicyNorm nfc sourceText s en) then false
        else true) := by
    simp only [shouldIncludeEntity, hs, he, termPolicyNorm]
    rw [if_neg (not_le.mpr hlt)]
  refine ⟨fun hne hd => ?_, fun hd ha => ?_, fun hne hd ha => ?_, fun hemp => ?_⟩
  · rw [hmain]
    simp [List.length_eq_zero, hne, list_contains_iff, hd]
  · rcases Decidable.em ((termPolicyNorm nfc sourceText s en).length = 0) with hz | hz
    · rw [hmain]
      simp [hz]
    · rw [hmain]
      simp [hz, list_contains_iff, hd, ha]
  · rw [hmain]
    simp [List.length_eq_zero, hne, list_contains_iff, hd, ha]
  · rw [hmain]
    simp [hemp]

/-- Witness for C1 at a concrete input: the term `"a"` is in both the allow
and the deny list, and the entity over that span is included. -/
theorem C1_term_policy_deny_precedence_witness :
    (finOf (JSVal.num (.fin 0)) = some 0 ∧ finOf (JSVal.num (.fin 1)) = some 1 ∧
        (0 : ℚ) < 1 ∧ termPolicyNorm id "a".data 0 1 ≠ [] ∧
        termPolicyNorm id "a".data 0 1 ∈ ["a".data]) ∧
    shouldIncludeEntity id
        (some { entity_type := some "PERSON".data, start := .num (.fin 0), end_ := .num (.fin 1),
                score := .undefined, recognizer_result := none, text := none })
        "a".data ["a".data] ["a".data] = true := by
  refine ⟨⟨rfl, rfl, by norm_num, by decide, by decide⟩, ?_⟩
  exact (C1_term_policy_deny_precedence id
    { entity_type := some "PERSON".data, start := .num (.fin 0), end_ := .num (.fin 1),
      score := .undefined, recognizer_result := none, text := none }
    "a".data ["a".data] ["a".data] 0 1 rfl rfl (by norm_num)).1 (by decide) (by decide)

theorem findPrefixIndex_eq_some (needle : List Char) :
    ∀ (hay : List Char) (j : Nat), findPrefixIndex needle hay = some j →
      needle.isPrefixOf (hay.drop j) = true ∧
        ∀ i, i < j → needle.isPrefixOf (hay.drop i) = false := by
  intro hay
  induction hay with
  | nil =>
    intro j h
    unfold findPrefixIndex at h
    by_cases hne : needle.isEmpty
    · rw [if_pos hne] at h
      cases h
      refine ⟨?_, fun i hi => absurd hi (Nat.not_lt_zero i)⟩
      rcases needle with _ | _
      · rfl
      · simp at hne
    · rw [if_neg hne] at h
      cases h
  | cons c rest ih =>
    intro j h
    unfold findPrefixIndex at h
    by_cases hp : needle.isPrefixOf (c :: rest) = true
    · rw [if_pos hp] at h
      cases h
      exact ⟨hp, fun i hi => absurd hi (Nat.not_lt_zero i)⟩
    · rw [if_neg hp] at h
      rcases hfind : findPrefixIndex needle rest with _ | j'
      · rw [hfind] at h
        cases h
      · rw [hfind] at h
        cases h
        rcases ih j' hfind with ⟨h1, h2⟩
        refine ⟨h1, fun i hi => ?_⟩
        cases i with
        | zero =>
          simpa using Bool.eq_false_iff.mpr hp
        | succ i' =>
          exact h2 i' (Nat.lt_of_succ_lt_succ hi)

theorem findPrefixIndex_eq_none (needle : List Char) :
    ∀ (hay : List Char), findPrefixIndex needle hay = none →
      ∀ i, needle.isPrefixOf (hay.drop i) = false := by
  intro hay
  induction hay with
  | nil =>
    intro h i
    unfold findPrefixIndex at h
    by_cases hne : needle.isEmpty
    · rw [if_pos hne] at h
      cases h
    · rw [if_neg hne] at h
      rcases needle with _ | ⟨a, as⟩
      · simp at hne
      · rw [List.drop_nil]
        rfl
  | cons c rest ih =>
    intro h i
    unfold findPrefixIndex at h
    by_cases hp : needle.isPrefixOf (c :: rest) = true
    · rw [if_pos hp] at h
      cases h
    · rw [if_neg hp] at h
      rcases hfind : findPrefixIndex needle rest with _ | j'
      · cases i with
        | zero => simpa using Bool.eq_false_iff.mpr hp
        | succ i' => exact ih hfind i'
      · rw [hfind] at h
        cases h

theorem jsIndexOfFrom_eq_some (hay needle : List Char) (k m : Nat)
    (h : jsIndexOfFrom hay needle k = some m) :
    k ≤ m ∧ needle.isPrefixOf (hay.drop m) = true ∧
      ∀ i, k ≤ i → i < m → needle.isPrefixOf (hay.drop i) = false := by
  unfold jsIndexOfFrom at h
  rcases hfind : findPrefixIndex needle (hay.drop k) with _ | j
  · rw [hfind] at h
    cases h
  · rw [hfind] at h
    simp only [Option.map_some'] at h
    rcases findPrefixIndex_eq_some needle (hay.drop k) j hfind with ⟨h1, h2⟩
    rw [List.drop_drop, show k + j = j + k from Nat.add_comm k j] at h1
    have hm : m = j + k := (Option.some.injEq _ _ ▸ h).symm
    subst hm
    refine ⟨Nat.le_add_left k j, h1, fun i hki him => ?_⟩
    have hpi : needle.isPrefixOf ((hay.drop k).drop (i - k)) = false := h2 (i - k) (by omega)
    rw [List.drop_drop] at hpi
    rw [show k + (i - k) = i from by omega] at hpi
    exact hpi

theorem jsIndexOfFrom_eq_none (hay needle : List Char) (k : Nat)
    (h : jsIndexOfFrom hay needle k = none) :
    ∀ i, k ≤ i → needle.isPrefixOf (hay.drop i) = false := by
  intro i hki
  unfold jsIndexOfFrom at h
  rcases hfind : findPrefixIndex needle (hay.drop k) with _ | j
  · have hpi := findPrefixIndex_eq_none needle (hay.drop k) hfind (i - k)
    rw [List.drop_drop] at hpi
    rw [show k + (i - k) = i from by omega] at hpi
    exact hpi
  · rw [hfind] at h
    cases h

theorem scanTermFuel_sound (ls term : List Char) :
    ∀ (fuel i : Nat), ∀ se ∈ scanTermFuel ls term i fuel,
      i ≤ se.1 ∧ se.2 = se.1 + term.length ∧ term.isPrefixOf (ls.drop se.1) = true := by
  intro fuel
  induction fuel with
  | zero =>
    intro i se hse
    simp [scanTermFuel] at hse
  | succ fuel ih =>
    intro i se hse
    unfold scanTermFuel at hse
    by_cases hi : i ≤ ls.length
    · rw [if_pos hi] at hse
      rcases hm : jsIndexOfFrom ls term i with _ | m
      · rw [hm] at hse
        simp at hse
      · rw [hm] at hse
        rcases jsIndexOfFrom_eq_some ls term i m hm with ⟨hkm, hpre, _⟩
        rcases List.mem_cons.mp hse with hhead | htail
        · cases hhead
          exact ⟨hkm, rfl, hpre⟩
        · rcases ih (m + term.length) se htail with ⟨h1, h2, h3⟩
          exact ⟨le_trans hkm (le_trans (Nat.le_add_right m term.length) h1), h2, h3⟩
    · rw [if_neg hi] at hse
      simp at hse

theorem scanTermFuel_chain (ls term : List Char) :
    ∀ (fuel i : Nat),
      List.Pairwise (fun a b => a.2 ≤ b.1) (scanTermFuel ls term i fuel) := by
  intro fuel
  induction fuel with
  | zero =>
    intro i
    simp [scanTermFuel]
  | succ fuel ih =>
    intro i
    unfold scanTermFuel
    by_cases hi : i ≤ ls.length
    · rw [if_pos hi]
      rcases hm : jsIndexOfFrom ls term i with _ | m
      · simp
      · refine List.pairwise_cons.mpr ⟨fun b hb => ?_, ih (m + term.length)⟩
        exact (scanTermFuel_sound ls term fuel (m + term.length) b hb).1
    · rw [if_neg hi]
      simp

theorem isPrefixOf_nil_eq_false (term : List Char) (hne : term ≠ []) :
    term.isPrefixOf ([] : List Char) = false := by
  rcases term with _ | ⟨a, as⟩
  · exact absurd rfl hne
  · rfl

theorem scanTermFuel_complete (ls term : List Char) (hne : term ≠ []) :
    ∀ (fuel i p : Nat), ls.length + 1 - i ≤ fuel → i ≤ p →
      term.isPrefixOf (ls.drop p) = true →
      ∃ se ∈ scanTermFuel ls term i fuel, se.1 ≤ p ∧ p < se.2 := by
  have hlen : 1 ≤ term.length := List.length_pos.mpr hne
  intro fuel
  induction fuel with
  | zero =>
    intro i p hfuel hip hpre
    have hp : ls.length < p := by omega
    rw [List.drop_eq_nil_of_le (le_of_lt hp)] at hpre
    rw [isPrefixOf_nil_eq_false term hne] at hpre
    cases hpre
  | succ fuel ih =>
    intro i p hfuel hip hpre
    by_cases hi : i ≤ ls.length
    · unfold scanTermFuel
      rw [if_pos hi]
      rcases hm : jsIndexOfFrom ls term i with _ | m
      · have := jsIndexOfFrom_eq_none ls term i hm p hip
        rw [this] at hpre
        cases hpre
      · rcases jsIndexOfFrom_eq_some ls term i m hm with ⟨hkm, _, hleft⟩
        by_cases hcover : p < m + term.length
        · have hmp : m ≤ p := by
            by_contra hcon
            have := hleft p hip (by omega)
            rw [this] at hpre
            cases hpre
          exact ⟨(m, m + term.length), List.mem_cons_self _ _, hmp, hcover⟩
        · have hnext : ls.length + 1 - (m + term.length) ≤ fuel := by omega
          rcases ih (m + term.length) p hnext (by omega) hpre with ⟨se, hmem, h1, h2⟩
          exact ⟨se, List.mem_cons_of_mem _ hmem, h1, h2⟩
    · have hp : ls.length < p := by omega
      rw [List.drop_eq_nil_of_le (le_of_lt hp)] at hpre
      rw [isPrefixOf_nil_eq_false term hne] at hpre
      cases hpre

/-- C2: DenylistScanner postcondition. For a non-empty deny term, the scanner's
match list is sound ( every reported span is a case-insensitive occurrence of
the term, of the term's length, in the lowercased source ), non-overlapping and
left-to-right ( each match ends no later than the next begins, because the
cursor advances to `end` ), and complete ( every occurrence position of the term
overlaps some reported span ); every synthetic entity carries exactly the
fields `DENYLIST_TERM` / span offsets / score 1 / `denylist` / the original-case
slice, every match of a member term is emitted, and on the denylist-floor
scenario ( empty detection output, term `"codealpha"`, source
`"Secret project CodeAlpha is active"` ) the pipeline output is exactly the one
synthetic entity spanning `"CodeAlpha"`. -/
theorem C2_denylist_scanner_postcondition (sourceText : List Char)
    (denylistSet : List (List Char)) (term : List Char)
    (hterm : term ∈ denylistSet) (hne : term ≠ []) :
    (∀ se ∈ scanTerm (jsToLower sourceText) term 0,
        se.2 = se.1 + term.length ∧
          term.isPrefixOf ((jsToLower sourceText).drop se.1) = true) ∧
    List.Pairwise (fun a b => a.2 ≤ b.1) (scanTerm (jsToLower sourceText) term 0) ∧
    (∀ p : Nat, term.isPrefixOf ((jsToLower sourceText).drop p) = true →
        ∃ se ∈ scanTerm (jsToLower sourceText) term 0, se.1 ≤ p ∧ p < se.2) ∧
    (∀ e ∈ findDenylistEntities sourceText denylistSet,
        e.entity_type = some "DENYLIST_TERM".data ∧
          e.score = .num (.fin 1) ∧
          e.recognizer_result = some "denylist".data ∧
          ∃ a b : Nat, e.start = .num (.fin (a : ℚ)) ∧ e.end_ = .num (.fin (b : ℚ)) ∧
            e.text = some (jsSlice sourceText (.fin (a : ℚ)) (.fin (b : ℚ))) ∧
            ∃ t ∈ denylistSet, t ≠ [] ∧ b = a + t.length ∧
              t.isPrefixOf ((jsToLower sourceText).drop a) = true) ∧
    (∀ se ∈ scanTerm (jsToLower sourceText) term 0,
        denylistEntityFor sourceText se ∈ findDenylistEntities sourceText denylistSet) ∧
    filterPipeline id (some []) "Secret project CodeAlpha is active".data none (1 / 2) []
        ["codealpha".data] =
      [denylistEntityFor "Secret project CodeAlpha is active".data (15, 24)] := by
  have hdeny : denylistSet.isEmpty = false := by
    rcases denylistSet with _ | _
    · cases hterm
    · rfl
  refine ⟨fun se hse => ?_, scanTermFuel_chain _ _ _ _, fun p hpre => ?_, fun e he => ?_,
    fun se hse => ?_, by decide⟩
  · exact (scanTermFuel_sound _ _ _ _ se hse).2
  · exact scanTermFuel_complete _ _ hne _ 0 p (by omega) (Nat.zero_le p) hpre
  · unfold findDenylistEntities at he
    rw [hdeny] at he
    simp only [Bool.false_eq_true, if_false] at he
    rcases List.mem_flatMap.mp he with ⟨t, hmem, hin⟩
    by_cases hte : t.isEmpty
    · rw [if_pos hte] at hin
      cases hin
    · rw [if_neg hte] at hin
      rcases List.mem_map.mp hin with ⟨se, hscan, rfl⟩
      have htne : t ≠ [] := by
        rcases t with _ | _
        · simp at hte
        · exact fun h => by cases h
      rcases scanTermFuel_sound _ _ _ _ se hscan with ⟨_, hlen2, hpre2⟩
      exact ⟨rfl, rfl, rfl, se.1, se.2, rfl, rfl, rfl, t, hmem, htne, hlen2, hpre2⟩
  · unfold findDenylistEntities
    rw [hdeny]
    simp only [Bool.false_eq_true, if_false]
    refine List.mem_flatMap.mpr ⟨term, hterm, ?_⟩
    have hte : term.isEmpty = false := by
      rcases term with _ | _
      · exact absurd rfl hne
      · rfl
    rw [hte]
    simp only [Bool.false_eq_true, if_false]
    exact List.mem_map.mpr ⟨se, hse, rfl⟩

/-- Witness for C2 at the denylist-floor scenario's term and source. -/
theorem C2_denylist_scanner_postcondition_witness :
    ("codealpha".data ∈ ["codealpha".data] ∧ "codealpha".data ≠ []) ∧
    filterPipeline id (some []) "Secret project CodeAlpha is active".data none (1 / 2) []
        ["codealpha".data] =
      [denylistEntityFor "Secret project CodeAlpha is active".data (15, 24)] := by
  refine ⟨⟨by decide, by decide⟩, ?_⟩
  exact (C2_denylist_scanner_postcondition "Secret project CodeAlpha is active".data
    ["codealpha".data] "codealpha".data (by decide) (by decide)).2.2.2.2.2

theorem validatedKey_spec (entity : Option Entity) (e : Entity) (k : List Char)
    (h : validatedKey entity = some (e, k)) :
    entity = some e ∧ validEntity e = true ∧ k = entityKeyOf e := by
  rcases entity with _ | e'
  · cases h
  · rcases hs : finOf e'.start with _ | s
    · simp only [validatedKey, hs] at h
      cases h
    · rcases hen : finOf e'.end_ with _ | en
      · simp only [validatedKey, hs, hen] at h
        cases h
      · simp only [validatedKey, hs, hen] at h
        by_cases hle : en ≤ s
        · rw [if_pos hle] at h
          cases h
        · rw [if_neg hle] at h
          cases h
          refine ⟨rfl, ?_, ?_⟩
          · unfold validEntity
            rw [hs, hen]
            simpa using lt_of_not_le hle
          · unfold entityKeyOf
            rw [hs, hen]

theorem mergeAux_append (l1 l2 : List (Option Entity)) :
    ∀ seen, mergeAux seen (l1 ++ l2) = mergeAux seen l1 ++ mergeAux (seenAfter seen l1) l2 := by
  induction l1 with
  | nil =>
    intro seen
    simp only [List.nil_append, mergeAux, seenAfter]
  | cons entity rest ih =>
    intro seen
    rw [List.cons_append]
    rcases hv : validatedKey entity with _ | ek
    · simp only [mergeAux, seenAfter, hv]
      exact ih seen
    · simp only [mergeAux, seenAfter, hv]
      by_cases hc : seen.contains ek.2
      · rw [if_pos hc, if_pos hc, if_pos hc]
        exact ih seen
      · rw [if_neg hc, if_neg hc, if_neg hc, List.cons_append]
        rw [ih (ek.2 :: seen)]

theorem seenAfter_mono (l : List (Option Entity)) :
    ∀ seen, ∀ k ∈ seen, k ∈ seenAfter seen l := by
  induction l with
  | nil => intro seen k hk; exact hk
  | cons entity rest ih =>
    intro seen k hk
    rcases hv : validatedKey entity with _ | ek
    · simp only [seenAfter, hv]
      exact ih seen k hk
    · simp only [seenAfter, hv]
      by_cases hc : seen.contains ek.2
      · rw [if_pos hc]
        exact ih seen k hk
      · rw [if_neg hc]
        exact ih (ek.2 :: seen) k (List.mem_cons_of_mem _ hk)

theorem seenAfter_covers (l : List (Option Entity)) :
    ∀ seen, ∀ entity ∈ l, ∀ ek, validatedKey entity = some ek → ek.2 ∈ seenAfter seen l := by
  induction l with
  | nil =>
    intro seen entity he
    cases he
  | cons hd rest ih =>
    intro seen entity he ek hek
    rcases List.mem_cons.mp he with rfl | htail
    · simp only [seenAfter, hek]
      by_cases hc : seen.contains ek.2
      · rw [if_pos hc]
        exact seenAfter_mono rest seen ek.2 ((list_contains_iff seen ek.2).mp hc)
      · rw [if_neg hc]
        exact seenAfter_mono rest (ek.2 :: seen) ek.2 (List.mem_cons_self _ _)
    · rcases hv : validatedKey hd with _ | ek'
      · simp only [seenAfter, hv]
        exact ih seen entity htail ek hek
      · simp only [seenAfter, hv]
        by_cases hc : seen.contains ek'.2
        · rw [if_pos hc]
          exact ih seen entity htail ek hek
        · rw [if_neg hc]
          exact ih (ek'.2 :: seen) entity htail ek hek

theorem mergeAux_all_seen (l : List (Option Entity)) :
    ∀ seen, (∀ entity ∈ l, ∀ ek, validatedKey entity = some ek → ek.2 ∈ seen) →
      mergeAux seen l = [] := by
  induction l with
  | nil => intro seen _; rfl
  | cons hd rest ih =>
    intro seen hcov
    rcases hv : validatedKey hd with _ | ek
    · simp only [mergeAux, hv]
      exact ih seen fun entity he => hcov entity (List.mem_cons_of_mem _ he)
    · have hmem : ek.2 ∈ seen := hcov hd (List.mem_cons_self _ _) ek hv
      simp only [mergeAux, hv]
      rw [if_pos ((list_contains_iff seen ek.2).mpr hmem)]
      exact ih seen fun entity he => hcov entity (List.mem_cons_of_mem _ he)

theorem mergeAux_eq_dedupByKey (l : List (Option Entity)) :
    ∀ seen, mergeAux seen l =
      (dedupByKey ((l.filterMap validatedKey).filter fun p => !seen.contains p.2)).map
        Prod.fst := by
  induction l with
  | nil =>
    intro seen
    simp only [mergeAux, List.filterMap_nil, List.filter_nil, dedupByKey, List.map_nil]
  | cons entity rest ih =>
    intro seen
    rcases hv : validatedKey entity with _ | ek
    · simp only [mergeAux, hv]
      rw [List.filterMap_cons_none hv]
      exact ih seen
    · simp only [mergeAux, hv]
      rw [List.filterMap_cons_some hv]
      by_cases hc : seen.contains ek.2
      · rw [if_pos hc, List.filter_cons_of_neg (by rw [hc]; decide)]
        exact ih seen
      · rw [if_neg hc,
          List.filter_cons_of_pos (by rw [Bool.not_eq_true] at hc; rw [hc]; rfl),
          dedupByKey, List.map_cons]
        have hfilter :
            ((rest.filterMap validatedKey).filter fun p => !seen.contains p.2).filter
                (fun q => q.2 ≠ ek.2) =
              (rest.filterMap validatedKey).filter fun p => !(ek.2 :: seen).contains p.2 := by
          rw [List.filter_filter]
          refine List.filter_congr fun p _ => ?_
          rw [List.contains_cons]
          by_cases hpk : p.2 = ek.2
          · simp [hpk]
          · simp [hpk]
        rw [hfilter, ih (ek.2 :: seen)]

theorem dedupByKey_subset (l : List (Entity × List Char)) :
    ∀ p ∈ dedupByKey l, p ∈ l := by
  induction l using dedupByKey.induct with
  | case1 =>
    intro p hp
    simp only [dedupByKey] at hp
    cases hp
  | case2 hd rest ih =>
    intro p hp
    rw [dedupByKey] at hp
    rcases List.mem_cons.mp hp with rfl | htail
    · exact List.mem_cons_self _ _
    · exact List.mem_cons_of_mem _ (List.mem_of_mem_filter (ih p htail))

theorem dedupByKey_map_snd_nodup (l : List (Entity × List Char)) :
    ((dedupByKey l).map Prod.snd).Nodup := by
  induction l using dedupByKey.induct with
  | case1 => simp [dedupByKey]
  | case2 hd rest ih =>
    rw [dedupByKey, List.map_cons]
    refine List.nodup_cons.mpr ⟨fun hmem => ?_, ih⟩
    rcases List.mem_map.mp hmem with ⟨q, hq, hsnd⟩
    have hq2 := dedupByKey_subset _ q hq
    have : q.2 ≠ hd.2 := by
      have := List.of_mem_filter hq2
      simpa using this
    exact this hsnd

/-- C5: EntityMerger dedup invariant. `mergeEntities` equals the
specification-side pipeline "validate each candidate, then keep the first
record of each key": primary entities first, then supplemental ones, each
stream in its original relative order, candidates with non-finite or inverted
offsets dropped; consequently the output has at most one entity per dedup key. -/
theorem C5_merge_dedup_invariant (baseEntities supplementalEntities : List (Option Entity)) :
    mergeEntities baseEntities supplementalEntities =
      (dedupByKey ((baseEntities ++ supplementalEntities).filterMap validatedKey)).map
        Prod.fst ∧
    ((mergeEntities baseEntities supplementalEntities).map entityKeyOf).Nodup := by
  have hchar : mergeEntities baseEntities supplementalEntities =
      (dedupByKey ((baseEntities ++ supplementalEntities).filterMap validatedKey)).map
        Prod.fst := by
    unfold mergeEntities
    rw [mergeAux_eq_dedupByKey]
    congr 1
    congr 1
    refine (List.filter_congr fun p _ => rfl).symm.trans ?_
    exact List.filter_eq_self.mpr fun p _ => rfl
  refine ⟨hchar, ?_⟩
  rw [hchar, List.map_map]
  have hagree :
      ((baseEntities ++ supplementalEntities).filterMap validatedKey).all
        (fun p => decide (entityKeyOf p.1 = p.2)) = true := by
    rw [List.all_eq_true]
    intro p hp
    rcases List.mem_filterMap.mp hp with ⟨entity, _, hv⟩
    rcases validatedKey_spec entity p.1 p.2 hv with ⟨_, _, hk⟩
    simpa using hk.symm
  have hmapeq :
      (dedupByKey ((baseEntities ++ supplementalEntities).filterMap validatedKey)).map
          (entityKeyOf ∘ Prod.fst) =
        (dedupByKey ((baseEntities ++ supplementalEntities).filterMap validatedKey)).map
          Prod.snd := by
    refine List.map_congr_left fun p hp => ?_
    have hmem := dedupByKey_subset _ p hp
    rw [List.all_eq_true] at hagree
    simpa using hagree p hmem
  rw [hmapeq]
  exact dedupByKey_map_snd_nodup _

/-- C9: EntityMerger idempotence. Merging a list with itself yields the same
output as merging it with the empty supplemental list. -/
theorem C9_merge_idempotent (L : List (Option Entity)) :
    mergeEntities L L = mergeEntities L [] := by
  unfold mergeEntities
  rw [List.append_nil, mergeAux_append]
  rw [mergeAux_all_seen L (seenAfter [] L)
    (fun entity he ek hek => seenAfter_covers L [] entity he ek hek)]
  rw [List.append_nil]

/-- C3: ThresholdFilter inclusion. An entity is kept iff every finite parse of
its score is at least the threshold ( so a finite score `s` is kept iff
`t ≤ s`, inclusive bound ), and an absent or non-numeric score is kept
unconditionally, for every threshold. -/
theorem C3_threshold_inclusion (e : Entity) (t s : ℚ) :
    (thresholdKeep e t = true ↔ ∀ x : ℚ, jsNumericValue e.score = .fin x → t ≤ x) ∧
    (e.score = .undefined → thresholdKeep e t = true) ∧
    (jsNumericValue e.score = .nan → thresholdKeep e t = true) ∧
    (e.score = .num (.fin s) → ((thresholdKeep e t = true ↔ t ≤ s) ∧
      (s < t → thresholdKeep e t = false))) := by
  refine ⟨⟨fun hk y hy => ?_, fun hall => ?_⟩, fun h => ?_, fun h => ?_, fun h => ?_⟩
  · unfold thresholdKeep at hk
    rw [hy] at hk
    simpa using hk
  · unfold thresholdKeep
    cases hv : jsNumericValue e.score with
    | fin x => simpa using hall x hv
    | nan => rfl
    | inf => rfl
    | negInf => rfl
  · unfold thresholdKeep
    rw [h]
    rfl
  · unfold thresholdKeep
    rw [h]
  · have hv : jsNumericValue e.score = .fin s := by rw [h]; rfl
    constructor
    · unfold thresholdKeep
      rw [hv]
      simp
    · intro hlt
      unfold thresholdKeep
      rw [hv]
      simp [not_le.mpr hlt]

/-- Witness for C3: an entity with an absent score passes every threshold, and
an entity with score exactly at the threshold passes. -/
theorem C3_threshold_inclusion_witness :
    ({ entity_type := none, start := .undefined, end_ := .undefined, score := .undefined,
        recognizer_result := none, text := none : Entity }.score = JSVal.undefined ∧
      thresholdKeep
        { entity_type := none, start := .undefined, end_ := .undefined, score := .undefined,
          recognizer_result := none, text := none } 1 = true) ∧
    ({ entity_type := none, start := .undefined, end_ := .undefined, score := .num (.fin (1 / 2)),
        recognizer_result := none, text := none : Entity }.score = JSVal.num (.fin (1 / 2)) ∧
      thresholdKeep
        { entity_type := none, start := .undefined, end_ := .undefined, score := .num (.fin (1 / 2)),
          recognizer_result := none, text := none } (1 / 2) = true) := by
  constructor
  · exact ⟨rfl, (C3_threshold_inclusion _ 1 0).2.1 rfl⟩
  · refine ⟨rfl, ?_⟩
    exact (((C3_threshold_inclusion _ (1 / 2) (1 / 2)).2.2.2 rfl).1).mpr le_rfl

/-- C4, counterexample: the claim says a numeric threshold outside `[0, 1]` is
clamped ( `1.5 ↦ 1` ); the code instead falls back to the default `0.5`. -/
theorem C4_threshold_not_clamped_counterexample :
    acceptanceThreshold (.num (.fin (3 / 2))) = 1 / 2 ∧
    acceptanceThreshold (.num (.fin (3 / 2))) ≠ 1 := by
  have h : acceptanceThreshold (.num (.fin (3 / 2))) = 1 / 2 := by
    simp only [acceptanceThreshold, jsNumericValue, DEFAULT_ACCEPTANCE_THRESHOLD]
    norm_num
  exact ⟨h, by rw [h]; norm_num⟩

/-- C4 as amended: the effective threshold always lies in `[0, 1]`; a
non-numeric input yields the default `0.5`; and a finite numeric input is used
as-is when it lies in `[0, 1]` and otherwise is replaced by the default `0.5`
( not clamped ). -/
theorem C4_threshold_normalization_amended (v : JSVal) (q : ℚ) :
    (0 ≤ acceptanceThreshold v ∧ acceptanceThreshold v ≤ 1) ∧
    acceptanceThreshold (.num .nan) = 1 / 2 ∧
    acceptanceThreshold (.num .inf) = 1 / 2 ∧
    acceptanceThreshold .undefined = 1 / 2 ∧
    acceptanceThreshold (.num (.fin q)) = if 0 ≤ q ∧ q ≤ 1 then q else 1 / 2 := by
  refine ⟨?_, by norm_num [acceptanceThreshold, jsNumericValue, DEFAULT_ACCEPTANCE_THRESHOLD],
    by norm_num [acceptanceThreshold, jsNumericValue, DEFAULT_ACCEPTANCE_THRESHOLD],
    by norm_num [acceptanceThreshold, jsNumericValue, DEFAULT_ACCEPTANCE_THRESHOLD], ?_⟩
  · cases hv : jsNumericValue v with
    | fin p =>
      simp only [acceptanceThreshold, hv]
      by_cases hp : 0 ≤ p ∧ p ≤ 1
      · rw [if_pos hp]
        exact hp
      · rw [if_neg hp]
        norm_num [DEFAULT_ACCEPTANCE_THRESHOLD]
    | nan =>
      simp only [acceptanceThreshold, hv]
      norm_num [DEFAULT_ACCEPTANCE_THRESHOLD]
    | inf =>
      simp only [acceptanceThreshold, hv]
      norm_num [DEFAULT_ACCEPTANCE_THRESHOLD]
    | negInf =>
      simp only [acceptanceThreshold, hv]
      norm_num [DEFAULT_ACCEPTANCE_THRESHOLD]
  · simp only [acceptanceThreshold, jsNumericValue, DEFAULT_ACCEPTANCE_THRESHOLD]

theorem mergeAux_valid (l : List (Option Entity)) :
    ∀ seen, ∀ e ∈ mergeAux seen l, validEntity e = true := by
  induction l with
  | nil =>
    intro seen e he
    simp only [mergeAux] at he
    cases he
  | cons hd rest ih =>
    intro seen e he
    rcases hv : validatedKey hd with _ | ek
    · simp only [mergeAux, hv] at he
      exact ih seen e he
    · simp only [mergeAux, hv] at he
      by_cases hc : seen.contains ek.2
      · rw [if_pos hc] at he
        exact ih seen e he
      · rw [if_neg hc] at he
        rcases List.mem_cons.mp he with rfl | htail
        · exact (validatedKey_spec hd ek.1 ek.2 (by rw [hv])).2.1
        · exact ih (ek.2 :: seen) e htail

/-- C8: Error-handling contract of the filtering pipeline. A non-string
`text` is rejected with an invalid-input error before any stage runs ( never
silently swallowed ), while malformed entity records never surface from the
filter/merge stages: the non-object marker is never a member of the
type-filter output, and every entity in the final merged output has finite
offsets with `start < end` — malformed candidates are silently dropped, and
every stage is a total function that raises nothing. -/
theorem C8_error_handling_contract :
    textRejected .nonString = true ∧
    (∀ (l : List (Option Entity)) (ts : Option (List (List Char))),
        (none : Option Entity) ∉ entityTypeFiltered (some l) ts) ∧
    (∀ (nfc : List Char → List Char) (analyzerResults : Option (List (Option Entity)))
        (text : List Char) (ts : Option (List (List Char))) (thr : ℚ)
        (allow deny : List (List Char)),
        ∀ e ∈ filterPipeline nfc analyzerResults text ts thr allow deny,
          validEntity e = true) := by
  refine ⟨rfl, fun l ts hmem => ?_, fun nfc ar text ts thr allow deny e he => ?_⟩
  · simp only [entityTypeFiltered] at hmem
    have hf := List.of_mem_filter hmem
    simp at hf
  · unfold filterPipeline mergeEntities at he
    exact mergeAux_valid _ _ e he

/-- Witness for C8: a concrete pipeline output entity, shown valid by the
contract. -/
theorem C8_error_handling_contract_witness :
    (denylistEntityFor "Secret project CodeAlpha is active".data (15, 24) ∈
        filterPipeline id (some []) "Secret project CodeAlpha is active".data none (1 / 2) []
          ["codealpha".data]) ∧
    validEntity (denylistEntityFor "Secret project CodeAlpha is active".data (15, 24)) = true := by
  refine ⟨by decide, ?_⟩
  exact C8_error_handling_contract.2.2 id (some [])
    "Secret project CodeAlpha is active".data none (1 / 2) [] ["codealpha".data] _ (by decide)

theorem mem_insertLe {α : Type} (le : α → α → Bool) (x : α) :
    ∀ (l : List α) (a : α), a ∈ insertLe le x l ↔ a = x ∨ a ∈ l := by
  intro l
  induction l with
  | nil =>
    intro a
    simp [insertLe]
  | cons y ys ih =>
    intro a
    unfold insertLe
    by_cases hxy : le x y
    · rw [if_pos hxy]
      simp only [List.mem_cons]
    · rw [if_neg hxy]
      simp only [List.mem_cons, ih a]
      tauto

theorem pairwise_insertLe {α : Type} (le : α → α → Bool)
    (htrans : ∀ a b c, le a b = true → le b c = true → le a c = true)
    (htot : ∀ a b, le a b = true ∨ le b a = true) (x : α) :
    ∀ l : List α, l.Pairwise (fun a b => le a b = true) →
      (insertLe le x l).Pairwise fun a b => le a b = true := by
  intro l
  induction l with
  | nil =>
    intro _
    simp [insertLe]
  | cons y ys ih =>
    intro hp
    rcases List.pairwise_cons.mp hp with ⟨hy, hys⟩
    unfold insertLe
    by_cases hxy : le x y
    · rw [if_pos hxy]
      refine List.pairwise_cons.mpr ⟨?_, hp⟩
      intro b hb
      rcases List.mem_cons.mp hb with rfl | hbys
      · exact hxy
      · exact htrans x y b hxy (hy b hbys)
    · rw [if_neg hxy]
      refine List.pairwise_cons.mpr ⟨?_, ih hys⟩
      intro b hb
      rcases (mem_insertLe le x ys b).mp hb with heq | hbys
      · rw [heq]
        rcases htot x y with h | h
        · exact absurd h hxy
        · exact h
      · exact hy b hbys

theorem pairwise_sortLe {α : Type} (le : α → α → Bool)
    (htrans : ∀ a b c, le a b = true → le b c = true → le a c = true)
    (htot : ∀ a b, le a b = true ∨ le b a = true) :
    ∀ l : List α, (sortLe le l).Pairwise fun a b => le a b = true := by
  intro l
  induction l with
  | nil => simp [sortLe]
  | cons x xs ih => exact pairwise_insertLe le htrans htot x (sortLe le xs) ih

theorem insertLe_perm {α : Type} (le : α → α → Bool) (x : α) :
    ∀ l : List α, (insertLe le x l).Perm (x :: l) := by
  intro l
  induction l with
  | nil => exact List.Perm.refl _
  | cons y ys ih =>
    unfold insertLe
    by_cases hxy : le x y
    · rw [if_pos hxy]
    · rw [if_neg hxy]
      exact (ih.cons y).trans (List.Perm.swap x y ys)

theorem sortLe_perm {α : Type} (le : α → α → Bool) :
    ∀ l : List α, (sortLe le l).Perm l := by
  intro l
  induction l with
  | nil => exact List.Perm.refl _
  | cons x xs ih => exact (insertLe_perm le x (sortLe le xs)).trans (ih.cons x)

/-- C6: MarkupAnnotator longest-first ordering. The substitution order is
sorted by found-text length descending ( so a finding whose literal text is a
proper, hence strictly shorter, substring of another's is never processed
before it ); in particular, with found-texts `"Ann"` and `"Ann Smith"` both
present — the shorter one listed first — every `"Ann Smith"` occurrence is
redacted as one unit and the output never contains the corrupted
`"&lt;PERSON&gt; Smith"`. -/
theorem C6_annotator_longest_first :
    (∀ (plainText : Option (List Char)) (entities : List (Option AnnEntity)),
        (annotationOrder plainText entities).Pairwise fun a b => foundLen b ≤ foundLen a) ∧
    applyAnonymizationToHtml "Ann Smith met Ann".data none
        [annPerson "Ann", annPerson "Ann Smith"] none =
      "&lt;PERSON&gt; met &lt;PERSON&gt;".data ∧
    ¬ "&lt;PERSON&gt; Smith".data <:+:
        applyAnonymizationToHtml "Ann Smith met Ann".data none
          [annPerson "Ann", annPerson "Ann Smith"] none := by
  refine ⟨fun plainText entities => ?_, by decide, by decide⟩
  have hp := pairwise_sortLe annLenLe
    (fun a b c hab hbc => by
      simp only [annLenLe, decide_eq_true_eq] at hab hbc ⊢
      exact le_trans hbc hab)
    (fun a b => by
      simp only [annLenLe, decide_eq_true_eq]
      exact Nat.le_total (foundLen b) (foundLen a))
    (computeFoundTexts plainText entities)
  unfold annotationOrder
  exact hp.imp fun h => by simpa [annLenLe] using h

/-- C10, counterexample: with the longer found-text listed first ( so that the
reverse-order pass of `src/unnamed/part_000` substitutes the shorter `"Ann"`
before `"Ann Smith"` ), the two implementations disagree on
`"Ann Smith"`: the utils version yields `"&lt;PERSON&gt;"`, the part_000
version `"&lt;PERSON&gt; Smith"`. -/
theorem C10_implementations_differ_counterexample :
    applyAnonymizationToHtml "Ann Smith".data none
        [annPerson "Ann Smith", annPerson "Ann"] none ≠
      applyAnonymizationToHtmlAlt "Ann Smith".data none
        [annPerson "Ann Smith", annPerson "Ann"] none := by
  decide

/-- C10 as amended: the two implementations are not extensionally equal — they
differ whenever sorting by found-text length descending and reversing the
input order disagree ( counterexample above ) — but they do agree on every
input whose entity list has at most one element. -/
theorem C10_agree_on_short_lists (html : List Char) (plainText : Option (List Char))
    (entities : List (Option AnnEntity)) (displayMap : Option (List (String × String)))
    (hlen : entities.length ≤ 1) :
    applyAnonymizationToHtml html plainText entities displayMap =
      applyAnonymizationToHtmlAlt html plainText entities displayMap := by
  rcases entities with _ | ⟨e, rest⟩
  · cases plainText <;> rfl
  · rcases rest with _ | ⟨f, r⟩
    · cases plainText <;> rfl
    · simp at hlen

/-- Witness for C10's amended agreement, on a singleton entity list. -/
theorem C10_agree_on_short_lists_witness :
    ([annPerson "Ann"].length ≤ 1) ∧
    applyAnonymizationToHtml "Ann Smith".data none [annPerson "Ann"] none =
      applyAnonymizationToHtmlAlt "Ann Smith".data none [annPerson "Ann"] none := by
  exact ⟨by decide,
    C10_agree_on_short_lists "Ann Smith".data none [annPerson "Ann"] none (by decide)⟩

theorem char_toNat_inj {c d : Char} (h : c.toNat = d.toNat) : c = d := by
  rw [← Char.ofNat_toNat c, ← Char.ofNat_toNat d, h]

theorem charListLe_total : ∀ a b : List Char, charListLe a b = true ∨ charListLe b a = true := by
  intro a
  induction a with
  | nil =>
    intro b
    left
    rfl
  | cons c cs ih =>
    intro b
    rcases b with _ | ⟨d, ds⟩
    · right
      rfl
    · rcases Nat.lt_trichotomy c.toNat d.toNat with h | h | h
      · left
        simp [charListLe, h]
      · have hcd : ¬ c.toNat < d.toNat := by omega
        have hdc : ¬ d.toNat < c.toNat := by omega
        rcases ih ds with hl | hr
        · left
          simp [charListLe, hcd, hdc, hl]
        · right
          simp [charListLe, hcd, hdc, hr]
      · right
        simp [charListLe, h]

theorem charListLe_trans :
    ∀ a b c : List Char, charListLe a b = true → charListLe b c = true →
      charListLe a c = true := by
  intro a
  induction a with
  | nil =>
    intro b c _ _
    rfl
  | cons x xs ih =>
    intro b c hab hbc
    rcases b with _ | ⟨y, ys⟩
    · cases hab
    · rcases c with _ | ⟨z, zs⟩
      · cases hbc
      · simp only [charListLe] at hab hbc ⊢
        by_cases hxz : x.toNat < z.toNat
        · rw [if_pos hxz]
        · by_cases hxy : x.toNat < y.toNat
          · by_cases hyz : y.toNat < z.toNat
            · omega
            · by_cases hzy : z.toNat < y.toNat
              · rw [if_neg hyz, if_pos hzy] at hbc
                cases hbc
              · omega
          · by_cases hyx : y.toNat < x.toNat
            · rw [if_neg hxy, if_pos hyx] at hab
              cases hab
            · by_cases hyz : y.toNat < z.toNat
              · omega
              · by_cases hzy : z.toNat < y.toNat
                · rw [if_neg hyz, if_pos hzy] at hbc
                  cases hbc
                · have hzx : ¬ z.toNat < x.toNat := by omega
                  rw [if_neg hxy, if_neg hyx] at hab
                  rw [if_neg hyz, if_neg hzy] at hbc
                  rw [if_neg hxz, if_neg hzx]
                  exact ih ys zs hab hbc

theorem charListLe_antisymm :
    ∀ a b : List Char, charListLe a b = true → charListLe b a = true → a = b := by
  intro a
  induction a with
  | nil =>
    intro b hab hba
    rcases b with _ | ⟨y, ys⟩
    · rfl
    · cases hba
  | cons x xs ih =>
    intro b hab hba
    rcases b with _ | ⟨y, ys⟩
    · cases hab
    · simp only [charListLe] at hab hba
      rcases Nat.lt_trichotomy x.toNat y.toNat with h | h | h
      · rw [if_neg (by omega : ¬ y.toNat < x.toNat), if_pos h] at hba
        cases hba
      · have h1 : ¬ x.toNat < y.toNat := by omega
        have h2 : ¬ y.toNat < x.toNat := by omega
        rw [if_neg h1, if_neg h2] at hab
        rw [if_neg h2, if_neg h1] at hba
        rw [char_toNat_inj h, ih ys hab hba]
      · rw [if_neg (by omega : ¬ x.toNat < y.toNat), if_pos h] at hab
        cases hab

theorem keyLe_trans (a b c : String × String) (hab : keyLe a b = true)
    (hbc : keyLe b c = true) : keyLe a c = true :=
  charListLe_trans _ _ _ hab hbc

theorem keyLe_total (a b : String × String) : keyLe a b = true ∨ keyLe b a = true :=
  charListLe_total _ _

theorem keyLe_antisymm_fst (a b : String × String) (hab : keyLe a b = true)
    (hba : keyLe b a = true) : a.1 = b.1 :=
  String.ext (charListLe_antisymm _ _ hab hba)

theorem sorted_unique_by_keys (l1 l2 : List (String × String))
    (hperm : l1.Perm l2) (hn : (l1.map Prod.fst).Nodup)
    (hs1 : l1.Pairwise fun a b => keyLe a b = true)
    (hs2 : l2.Pairwise fun a b => keyLe a b = true) : l1 = l2 := by
  haveI : IsAntisymm (String × String) (fun a b => a.1 ≠ b.1 ∧ keyLe a b = true) := by
    refine ⟨?_⟩
    rintro a b ⟨hne, hab⟩ ⟨_, hba⟩
    exact (hne (keyLe_antisymm_fst a b hab hba)).elim
  have hn2 : (l2.map Prod.fst).Nodup := ((hperm.map Prod.fst).nodup_iff).mp hn
  have hne1 : l1.Pairwise fun a b => a.1 ≠ b.1 := List.pairwise_map.mp hn
  have hne2 : l2.Pairwise fun a b => a.1 ≠ b.1 := List.pairwise_map.mp hn2
  exact List.eq_of_perm_of_sorted hperm (hne1.and hs1) (hne2.and hs2)

theorem sizeOf_snd_lt_of_mem_fields {p : String × JVal} {fs : List (String × JVal)}
    (h : p ∈ fs) : sizeOf p.2 < sizeOf (JVal.jobj fs) := by
  have h1 : sizeOf p < sizeOf fs := List.sizeOf_lt_of_mem h
  rcases p with ⟨k, v⟩
  simp only [Prod.mk.sizeOf_spec] at h1
  simp only [JVal.jobj.sizeOf_spec]
  omega

theorem sizeOf_lt_of_mem_elems {x : JVal} {xs : List JVal} (h : x ∈ xs) :
    sizeOf x < sizeOf (JVal.jarr xs) := by
  have h1 : sizeOf x < sizeOf xs := List.sizeOf_lt_of_mem h
  simp only [JVal.jarr.sizeOf_spec]
  omega

theorem jval_sizeOf_pos (v : JVal) : 0 < sizeOf v := by
  cases v <;> simp

theorem stringifyFields_eq_map (l : List (String × JVal)) :
    stringifyFields l = l.map fun p => (p.1, stableStringify p.2) := by
  induction l with
  | nil => rfl
  | cons p ps ih =>
    simp only [stringifyFields, List.map_cons, ih]

theorem stringifyElems_congr :
    ∀ as bs : List JVal,
      List.Forall₂ (fun v w => stableStringify v = stableStringify w) as bs →
      stringifyElems as = stringifyElems bs := by
  intro as bs hf
  induction hf with
  | nil => rfl
  | cons hab _ ihtail =>
    simp only [stringifyElems]
    rw [hab, ihtail]

theorem stringifyFields_congr :
    ∀ hs gs : List (String × JVal),
      hs.map Prod.fst = gs.map Prod.fst →
      List.Forall₂ (fun v w : JVal => stableStringify v = stableStringify w)
        (hs.map Prod.snd) (gs.map Prod.snd) →
      stringifyFields hs = stringifyFields gs := by
  intro hs
  induction hs with
  | nil =>
    intro gs hk _
    rcases gs with _ | _
    · rfl
    · cases hk
  | cons p ps ih =>
    intro gs hk hv
    rcases gs with _ | ⟨q, qs⟩
    · cases hk
    · simp only [List.map_cons, List.cons.injEq] at hk
      simp only [List.map_cons] at hv
      rcases hk with ⟨hk1, hk2⟩
      cases hv with
      | cons hv1 hv2 =>
        simp only [stringifyFields]
        rw [hk1, hv1, ih qs hk2 hv2]

theorem forall2_stringify_of_equiv (n : Nat)
    (ih : ∀ v w : JVal, sizeOf v ≤ n → JEquiv v w → stableStringify v = stableStringify w) :
    ∀ as bs : List JVal, List.Forall₂ JEquiv as bs → (∀ a ∈ as, sizeOf a ≤ n) →
      List.Forall₂ (fun v w => stableStringify v = stableStringify w) as bs := by
  intro as bs hf
  induction hf with
  | nil =>
    intro _
    exact List.Forall₂.nil
  | cons hab htail ihtail =>
    intro hsz
    exact List.Forall₂.cons (ih _ _ (hsz _ (List.mem_cons_self _ _)) hab)
      (ihtail fun a ha => hsz a (List.mem_cons_of_mem _ ha))

theorem stableStringify_eq_of_equiv :
    ∀ (n : Nat) (v w : JVal), sizeOf v ≤ n → JEquiv v w →
      stableStringify v = stableStringify w := by
  intro n
  induction n with
  | zero =>
    intro v w hv _
    exact absurd hv (by have := jval_sizeOf_pos v; omega)
  | succ n ih =>
    intro v w hv heq
    cases heq with
    | jnull => rfl
    | jundefined => rfl
    | jbool b => rfl
    | jstr s => rfl
    | jnum x y hxy =>
      simp only [stableStringify]
      cases x with
      | fin q =>
        cases y with
        | fin r =>
          simp only [numRep, Option.some.injEq] at hxy
          show jsonNumString (round6 q) = jsonNumString (round6 r)
          rw [hxy]
        | nan => cases hxy
        | inf => cases hxy
        | negInf => cases hxy
      | nan => cases y <;> first | rfl | cases hxy
      | inf => cases y <;> first | rfl | cases hxy
      | negInf => cases y <;> first | rfl | cases hxy
    | jarr xs ys hf =>
      simp only [stableStringify]
      have hsz : ∀ a ∈ xs, sizeOf a ≤ n := by
        intro a ha
        have := sizeOf_lt_of_mem_elems ha
        omega
      rw [stringifyElems_congr xs ys (forall2_stringify_of_equiv n ih xs ys hf hsz)]
    | jobj fs hs gs hnodup hperm hkeys hvals =>
      simp only [stableStringify]
      have hsz : ∀ a ∈ hs.map Prod.snd, sizeOf a ≤ n := by
        intro a ha
        rcases List.mem_map.mp ha with ⟨p, hp, rfl⟩
        have hpfs : p ∈ fs := (hperm.mem_iff).mpr hp
        have := sizeOf_snd_lt_of_mem_fields hpfs
        omega
      have h1 : stringifyFields hs = stringifyFields gs :=
        stringifyFields_congr hs gs hkeys
          (forall2_stringify_of_equiv n ih _ _ hvals hsz)
      have hperm2 : (stringifyFields fs).Perm (stringifyFields hs) := by
        rw [stringifyFields_eq_map, stringifyFields_eq_map]
        exact hperm.map _
      have hnod : ((stringifyFields fs).map Prod.fst).Nodup := by
        rw [stringifyFields_eq_map, List.map_map]
        exact hnodup
      have hp : (sortLe keyLe (stringifyFields fs)).Perm (sortLe keyLe (stringifyFields gs)) := by
        refine (sortLe_perm keyLe _).trans (hperm2.trans ?_)
        rw [h1]
        exact (sortLe_perm keyLe _).symm
      have hnodsorted : ((sortLe keyLe (stringifyFields fs)).map Prod.fst).Nodup :=
        (((sortLe_perm keyLe (stringifyFields fs)).map Prod.fst).nodup_iff).mpr hnod
      rw [sorted_unique_by_keys _ _ hp hnodsorted
        (pairwise_sortLe keyLe keyLe_trans keyLe_total _)
        (pairwise_sortLe keyLe keyLe_trans keyLe_total _)]

/-- C7: ResultSignature stability. Serialization is invariant under object key
insertion order at any nesting level and under finite numeric jitter that
vanishes after rounding to six decimal places; NaN and non-finite numbers
serialize to the canonical `"null"`; the entity-type list is trimmed,
uppercased, deduplicated and sorted before inclusion; and in particular
`signature({a:1,b:2}) = signature({b:2,a:1})` and
`signature({threshold:0.30000001}) = signature({threshold:0.3})`. -/
theorem C7_result_signature_stability :
    (∀ v w : JVal, JEquiv v w → stableStringify v = stableStringify w) ∧
    (∀ x : JSNum, x.isFinite = false → stableStringify (.jnum x) = "null") ∧
    stableStringify (.jobj [("a", .jnum (.fin 1)), ("b", .jnum (.fin 2))]) =
      stableStringify (.jobj [("b", .jnum (.fin 2)), ("a", .jnum (.fin 1))]) ∧
    buildResultSignature (.obj { threshold := .jnum (.fin (30000001 / 100000000)) }) =
      buildResultSignature (.obj { threshold := .jnum (.fin (3 / 10)) }) ∧
    buildResultSignature
        (.obj { entityTypes := .jarr [.jstr "person", .jstr " PERSON ", .jstr "email"] }) =
      buildResultSignature (.obj { entityTypes := .jarr [.jstr "EMAIL", .jstr "PERSON"] }) := by
  have hmain : ∀ v w : JVal, JEquiv v w → stableStringify v = stableStringify w :=
    fun v w h => stableStringify_eq_of_equiv (sizeOf v) v w le_rfl h
  refine ⟨hmain, fun x hx => ?_, ?_, ?_, ?_⟩
  · cases x with
    | fin q => cases hx
    | nan => rfl
    | inf => rfl
    | negInf => rfl
  · refine hmain _ _ ?_
    refine JEquiv.jobj _ [("b", .jnum (.fin 2)), ("a", .jnum (.fin 1))] _ (by decide)
      (List.Perm.swap _ _ _) rfl ?_
    exact List.Forall₂.cons (JEquiv.jnum _ _ rfl)
      (List.Forall₂.cons (JEquiv.jnum _ _ rfl) List.Forall₂.nil)
  · have hr : round6 ((30000001 : ℚ) / 100000000) = round6 ((3 : ℚ) / 10) := by
      unfold round6
      rw [if_pos (by norm_num), if_pos (by norm_num)]
      norm_num
    simp only [buildResultSignature, orDefault, normalizedThreshold, hr]
  · have hnorm : normalizeEntityTypes (.jarr [.jstr "person", .jstr " PERSON ", .jstr "email"]) =
        normalizeEntityTypes (.jarr [.jstr "EMAIL", .jstr "PERSON"]) := by decide
    simp only [buildResultSignature, orDefault, hnorm]

/-- Witness for C7: a key-permuted pair of objects is `JEquiv`-related, and the
stability theorem applied to it yields equal serializations. -/
theorem C7_result_signature_stability_witness :
    JEquiv (.jobj [("a", .jnum (.fin 1)), ("b", .jnum (.fin 2))])
        (.jobj [("b", .jnum (.fin 2)), ("a", .jnum (.fin 1))]) ∧
    stableStringify (.jobj [("a", .jnum (.fin 1)), ("b", .jnum (.fin 2))]) =
      stableStringify (.jobj [("b", .jnum (.fin 2)), ("a", .jnum (.fin 1))]) := by
  have h : JEquiv (.jobj [("a", .jnum (.fin 1)), ("b", .jnum (.fin 2))])
      (.jobj [("b", .jnum (.fin 2)), ("a", .jnum (.fin 1))]) := by
    refine JEquiv.jobj _ [("b", .jnum (.fin 2)), ("a", .jnum (.fin 1))] _ (by decide)
      (List.Perm.swap _ _ _) rfl ?_
    exact List.Forall₂.cons (JEquiv.jnum _ _ rfl)
      (List.Forall₂.cons (JEquiv.jnum _ _ rfl) List.Forall₂.nil)
  exact ⟨h, C7_result_signature_stability.1 _ _ h⟩

end Polly
